import Mathlib

/-!
Shallow embedding of `porespy/metrics/__funcs__.py` (chord metrology and
two-point correlation), together with proofs settling the spec claims.

Conventions:
* numpy boolean images become `Arr2 Bool` / `Arr3 Bool` / `Arr4 Bool`:
  a structure holding the explicit shape and the row-major nested list of
  cell values (`data`).  Shapes are carried explicitly because `squeeze`
  and `moveaxis` act on shapes, and a nested list cannot represent a shape
  such as `(0, 5)` on its own.
* Python exceptions become an explicit `Except PyErr` result:
  `valueError` for `range` with zero step, `indexError` for an
  out-of-bounds index assignment (`dims2[axis] = 0`), `axisError` for
  `moveaxis` applied with more source axes than the array has dimensions,
  `nameError` for a read of an unassigned local, `exn` for the source's
  own `raise Exception(...)` calls.
* `scipy.ndimage.label` uses face adjacency (the default cross-shaped
  structuring element); connected components are computed by a bounded
  flood fill (`breach`): iterating the one-step dilation `n` times where
  `n` is the number of cells reaches the fixpoint, because a reachable
  cell has a simple path of length below the cell count.
-/

set_option maxRecDepth 100000
set_option maxHeartbeats 2000000

inductive PyErr where
  | exn        -- `raise Exception(...)` in the source
  | valueError -- e.g. `range(..., 0)`
  | indexError -- out-of-range numpy index assignment
  | axisError  -- `moveaxis` with an axis out of range for the array
  | nameError  -- local variable referenced before assignment
  deriving DecidableEq, Repr

instance {ε α : Type} [DecidableEq ε] [DecidableEq α] :
    DecidableEq (Except ε α) := fun
  | .error e, .error f =>
      if h : e = f then .isTrue (by rw [h])
      else .isFalse (by intro c; cases c; exact h rfl)
  | .error _, .ok _ => .isFalse (by intro c; cases c)
  | .ok _, .error _ => .isFalse (by intro c; cases c)
  | .ok a, .ok b =>
      if h : a = b then .isTrue (by rw [h])
      else .isFalse (by intro c; cases c; exact h rfl)

/-- A 2-D numpy array with explicit shape `(n, m)` and row-major data. -/
structure Arr2 (α : Type) where
  n : ℕ
  m : ℕ
  data : List (List α)
  deriving DecidableEq, Repr

/-- A 3-D numpy array with explicit shape `(n, m, p)`. -/
structure Arr3 (α : Type) where
  n : ℕ
  m : ℕ
  p : ℕ
  data : List (List (List α))
  deriving DecidableEq, Repr

/-- A 4-D numpy array with explicit shape `(n, m, p, q)`. -/
structure Arr4 (α : Type) where
  n : ℕ
  m : ℕ
  p : ℕ
  q : ℕ
  data : List (List (List (List α)))
  deriving DecidableEq, Repr

def mk2 (n m : ℕ) (f : ℕ → ℕ → Bool) : Arr2 Bool :=
  ⟨n, m, (List.range n).map fun i => (List.range m).map fun j => f i j⟩

def get2 (g : Arr2 Bool) (i j : ℕ) : Bool :=
  ((g.data.getD i []).getD j false)

def mk3 (n m p : ℕ) (f : ℕ → ℕ → ℕ → Bool) : Arr3 Bool :=
  ⟨n, m, p, (List.range n).map fun i =>
    (List.range m).map fun j => (List.range p).map fun k => f i j k⟩

def get3 (g : Arr3 Bool) (i j k : ℕ) : Bool :=
  (((g.data.getD i []).getD j []).getD k false)

def mk3N (n m p : ℕ) (f : ℕ → ℕ → ℕ → ℕ) : Arr3 ℕ :=
  ⟨n, m, p, (List.range n).map fun i =>
    (List.range m).map fun j => (List.range p).map fun k => f i j k⟩

def get3N (g : Arr3 ℕ) (i j k : ℕ) : ℕ :=
  (((g.data.getD i []).getD j []).getD k 0)

def mk4 (n m p q : ℕ) (f : ℕ → ℕ → ℕ → ℕ → Bool) : Arr4 Bool :=
  ⟨n, m, p, q, (List.range n).map fun i => (List.range m).map fun j =>
    (List.range p).map fun k => (List.range q).map fun l => f i j k l⟩

def get4 (g : Arr4 Bool) (i j k l : ℕ) : Bool :=
  ((((g.data.getD i []).getD j []).getD k []).getD l false)

def mk4N (n m p q : ℕ) (f : ℕ → ℕ → ℕ → ℕ → ℕ) : Arr4 ℕ :=
  ⟨n, m, p, q, (List.range n).map fun i => (List.range m).map fun j =>
    (List.range p).map fun k => (List.range q).map fun l => f i j k l⟩

def get4N (g : Arr4 ℕ) (i j k l : ℕ) : ℕ :=
  ((((g.data.getD i []).getD j []).getD k []).getD l 0)

/-- Fully void (all `True`) 2-D image. -/
def fullVoid2 (n m : ℕ) : Arr2 Bool := mk2 n m fun _ _ => true

def fullVoid3 (n m p : ℕ) : Arr3 Bool := mk3 n m p fun _ _ _ => true

def fullVoid4 (n m p q : ℕ) : Arr4 Bool := mk4 n m p q fun _ _ _ _ => true

/-! ### Bounded flood fill (connected components / clear_border core) -/

/-- One dilation step of a flood fill: add every cell of `mask` adjacent
(under `adjb`) to a cell already reached. -/
def bstep {α : Type} [DecidableEq α] (adjb : α → α → Bool)
    (mask : Finset α) (r : Finset α) : Finset α :=
  r ∪ mask.filter fun q => ∃ p ∈ r, adjb p q = true

/-- `k`-fold iteration of `bstep` from `start`: the cells reachable from
`start` inside `mask` by a path of length at most `k`. -/
def breach {α : Type} [DecidableEq α] (adjb : α → α → Bool)
    (mask : Finset α) (start : Finset α) (k : ℕ) : Finset α :=
  (bstep adjb mask)^[k] start

/-- Face adjacency of 2-D cells (scipy's default 4-connectivity). -/
def adj2b (p q : ℕ × ℕ) : Bool :=
  (p.1 = q.1 && (p.2 + 1 = q.2 || q.2 + 1 = p.2)) ||
  (p.2 = q.2 && (p.1 + 1 = q.1 || q.1 + 1 = p.1))

/-- Face adjacency of 3-D cells (6-connectivity). -/
def adj3b (p q : ℕ × ℕ × ℕ) : Bool :=
  (p.1 = q.1 && adj2b p.2 q.2) ||
  (p.2 = q.2 && (p.1 + 1 = q.1 || q.1 + 1 = p.1))

/-- Face adjacency of 4-D cells (8-connectivity). -/
def adj4b (p q : ℕ × ℕ × ℕ × ℕ) : Bool :=
  (p.1 = q.1 && adj3b p.2 q.2) ||
  (p.2 = q.2 && (p.1 + 1 = q.1 || q.1 + 1 = p.1))

/-- The set of void (`True`) in-range cells of a 2-D image. -/
def voidSet2 (g : Arr2 Bool) : Finset (ℕ × ℕ) :=
  (Finset.range g.n ×ˢ Finset.range g.m).filter fun p => get2 g p.1 p.2

def voidSet3 (g : Arr3 Bool) : Finset (ℕ × ℕ × ℕ) :=
  (Finset.range g.n ×ˢ Finset.range g.m ×ˢ Finset.range g.p).filter
    fun p => get3 g p.1 p.2.1 p.2.2

def voidSet4 (g : Arr4 Bool) : Finset (ℕ × ℕ × ℕ × ℕ) :=
  (Finset.range g.n ×ˢ Finset.range g.m ×ˢ Finset.range g.p ×ˢ
      Finset.range g.q).filter
    fun p => get4 g p.1 p.2.1 p.2.2.1 p.2.2.2

/-- Cells of `mask` whose connected component touches a boundary face:
flood fill seeded at the boundary cells of `mask`. -/
def borderReach2 (g : Arr2 Bool) : Finset (ℕ × ℕ) :=
  let mask := voidSet2 g
  let seed := mask.filter fun p =>
    p.1 = 0 ∨ p.1 + 1 = g.n ∨ p.2 = 0 ∨ p.2 + 1 = g.m
  breach adj2b mask seed (g.n * g.m)

def borderReach3 (g : Arr3 Bool) : Finset (ℕ × ℕ × ℕ) :=
  let mask := voidSet3 g
  let seed := mask.filter fun c =>
    c.1 = 0 ∨ c.1 + 1 = g.n ∨ c.2.1 = 0 ∨ c.2.1 + 1 = g.m ∨
    c.2.2 = 0 ∨ c.2.2 + 1 = g.p
  breach adj3b mask seed (g.n * g.m * g.p)

def borderReach4 (g : Arr4 Bool) : Finset (ℕ × ℕ × ℕ × ℕ) :=
  let mask := voidSet4 g
  let seed := mask.filter fun c =>
    c.1 = 0 ∨ c.1 + 1 = g.n ∨ c.2.1 = 0 ∨ c.2.1 + 1 = g.m ∨
    c.2.2.1 = 0 ∨ c.2.2.1 + 1 = g.p ∨ c.2.2.2 = 0 ∨ c.2.2.2 + 1 = g.q
  breach adj4b mask seed (g.n * g.m * g.p * g.q)

/-- `clear_border(label(x == 1)[0]) > 0` then `temp * x` on a 2-D boolean
image: keep exactly the `True` cells whose component avoids the border. -/
def clearBorder2 (g : Arr2 Bool) : Arr2 Bool :=
  let r := borderReach2 g
  mk2 g.n g.m fun i j => get2 g i j && !(decide ((i, j) ∈ r))

def clearBorder3 (g : Arr3 Bool) : Arr3 Bool :=
  let r := borderReach3 g
  mk3 g.n g.m g.p fun i j k => get3 g i j k && !(decide ((i, j, k) ∈ r))

/-! ### apply_chords (single axis) -/

/-- Axis-0-to-`eff` swap of a 2-D array: the `moveaxis` determined by
`dims2[axis] = 0; dims2[0] = axis` (a transposition, its own inverse). -/
def swap2 (eff : ℕ) (g : Arr2 Bool) : Arr2 Bool :=
  if eff = 1 then mk2 g.m g.n (fun i j => get2 g j i) else g

/-- `apply_chords(im, spacing, axis, trim_edges)` on a 2-D image.
Mirrors the source line by line:
* `dims2[axis] = 0` raises `IndexError` unless `-2 ≤ axis < 2`; a negative
  in-range `axis` wraps around, so the `moveaxis` swap uses `axis % 2`;
* `moveaxis` with `dims2` swaps axis 0 with the (wrapped) `axis`;
* `atleast_3d` appends a trailing singleton dimension, so
  `ch[:, ::4+2*spacing, ::4+2*spacing] = 1` marks the cells whose second
  index is a multiple of the stride (the third index is always `0`,
  selected by the stride);
* `squeeze` drops every singleton dimension; when a singleton dimension
  exists beyond the appended one (i.e. some image dimension is `1`), the
  squeezed array has fewer than 2 dimensions and the final
  `moveaxis(source=[0, 1], ...)` raises `AxisError`;
* `trim_edges` applies `clear_border` to the labelled chords.
`spacing` is a natural number here, so the source's `spacing < 0` check is
vacuous (every claim under study has `spacing ≥ 0`). -/
def applyChords2 (g : Arr2 Bool) (spacing : ℕ) (axis : ℤ) (trim : Bool) :
    Except PyErr (Arr2 Bool) :=
  if axis < -2 ∨ 2 ≤ axis then .error .indexError
  else
    let eff : ℕ := (axis % 2).toNat
    let g1 := swap2 eff g
    let s := 4 + 2 * spacing
    let chords : Arr2 Bool := mk2 g1.n g1.m fun i j =>
      get2 g1 i j && decide (j % s = 0)
    if g1.n = 1 ∨ g1.m = 1 then .error .axisError
    else .ok (swap2 eff (if trim then clearBorder2 chords else chords))

/-- Axis-0-to-`eff` swap of a 3-D boolean array (the `moveaxis` with
`dims2` obtained from `dims2[axis] = 0; dims2[0] = axis`). -/
def swap3 (eff : ℕ) (g : Arr3 Bool) : Arr3 Bool :=
  if eff = 1 then mk3 g.m g.n g.p (fun i j k => get3 g j i k)
  else if eff = 2 then mk3 g.p g.m g.n (fun i j k => get3 g k j i)
  else g

/-- `apply_chords` on a 3-D image; same pipeline as `applyChords2` with
`atleast_3d` a no-op and `squeeze` failing the final `moveaxis` whenever
some dimension is `1`. -/
def applyChords3 (g : Arr3 Bool) (spacing : ℕ) (axis : ℤ) (trim : Bool) :
    Except PyErr (Arr3 Bool) :=
  if axis < -3 ∨ 3 ≤ axis then .error .indexError
  else
    let eff : ℕ := (axis % 3).toNat
    let g1 := swap3 eff g
    let s := 4 + 2 * spacing
    let chords : Arr3 Bool := mk3 g1.n g1.m g1.p fun i j k =>
      get3 g1 i j k && decide (j % s = 0 ∧ k % s = 0)
    if g1.n = 1 ∨ g1.m = 1 ∨ g1.p = 1 then .error .axisError
    else
      let t := if trim then clearBorder3 chords else chords
      .ok (swap3 eff t)

/-! ### apply_chords_3D -/

/-- The X-direction sampling pattern `ch[:, ::s, ::s] = 1`:
true of `(j, k)` when both trailing indices sit on the stride grid. -/
def patX (s j k : ℕ) : Prop := j % s = 0 ∧ k % s = 0

/-- The Y-direction sampling pattern `ch[::s, :, 2::s] = 2`.  A slice
`2::s` selects the indices congruent to 2 modulo `s` (the stride is at
least 4, so such an index is automatically at least 2). -/
def patY (s i k : ℕ) : Prop := i % s = 0 ∧ k % s = 2

/-- The Z-direction sampling pattern `ch[2::s, 2::s, :] = 3`. -/
def patZ (s i j : ℕ) : Prop := i % s = 2 ∧ j % s = 2

instance (s j k : ℕ) : Decidable (patX s j k) := by unfold patX; infer_instance
instance (s i k : ℕ) : Decidable (patY s i k) := by unfold patY; infer_instance
instance (s i j : ℕ) : Decidable (patZ s i j) := by unfold patZ; infer_instance

/-- Value of the probe array `ch` of `apply_chords_3D` at `(i, j, k)`:
the assignments run in order X := 1, Y := 2, Z := 3, each overwriting the
previous ones, so Z wins over Y which wins over X. -/
def chLabel3 (spacing i j k : ℕ) : ℕ :=
  let s := 4 + 2 * spacing
  if patZ s i j then 3 else if patY s i k then 2 else if patX s j k then 1
  else 0

/-- `temp = clear_border(label(chords > 0)[0]) > 0; chords = temp *
chords` on a 3-D label image: zero the cells whose component touches the
border, keep the rest. -/
def trimLabel3 (g : Arr3 ℕ) : Arr3 ℕ :=
  let b : Arr3 Bool := mk3 g.n g.m g.p fun i j k => decide (0 < get3N g i j k)
  let r := borderReach3 b
  mk3N g.n g.m g.p fun i j k => if (i, j, k) ∈ r then 0 else get3N g i j k

def trimLabel4 (g : Arr4 ℕ) : Arr4 ℕ :=
  let b : Arr4 Bool := mk4 g.n g.m g.p g.q fun i j k l =>
    decide (0 < get4N g i j k l)
  let r := borderReach4 b
  mk4N g.n g.m g.p g.q fun i j k l =>
    if (i, j, k, l) ∈ r then 0 else get4N g i j k l

/-- A boolean image of dynamic dimensionality 2, 3 or 4 (the carrier on
which the dimension checks of the source act). -/
inductive NdB where
  | g2 : Arr2 Bool → NdB
  | g3 : Arr3 Bool → NdB
  | g4 : Arr4 Bool → NdB
  deriving DecidableEq, Repr

def ndimB : NdB → ℕ
  | .g2 _ => 2
  | .g3 _ => 3
  | .g4 _ => 4

/-- A label image of dimensionality 3 or 4. -/
inductive NdL where
  | l3 : Arr3 ℕ → NdL
  | l4 : Arr4 ℕ → NdL
  deriving DecidableEq, Repr

/-- `apply_chords_3D(im, spacing, trim_edges)`.  The source checks only
`im.ndim < 3`; a 4-D image passes the check, and every slice assignment
(`ch[:, ::s, ::s]` etc.) then leaves the fourth axis unconstrained, so
the label at `(i, j, k, l)` depends on `(i, j, k)` exactly as in the 3-D
case.  `spacing` is a natural number (the `spacing < 0` check is vacuous
for the claims under study, which all have `spacing ≥ 0`). -/
def apply_chords_3D (g : NdB) (spacing : ℕ) (trim : Bool) :
    Except PyErr NdL :=
  match g with
  | .g2 _ => .error .exn   -- raise Exception('Must be a 3D image ...')
  | .g3 a =>
      let ch : Arr3 ℕ := mk3N a.n a.m a.p fun i j k =>
        if get3 a i j k then chLabel3 spacing i j k else 0
      .ok (.l3 (if trim then trimLabel3 ch else ch))
  | .g4 a =>
      let ch : Arr4 ℕ := mk4N a.n a.m a.p a.q fun i j k l =>
        if get4 a i j k l then chLabel3 spacing i j k else 0
      .ok (.l4 (if trim then trimLabel4 ch else ch))

/-! ### chord_length_distribution -/

/-- Cells of an `n × m` image in raster (row-major) order, the order in
which `scipy.ndimage.label` first meets and hence numbers components. -/
def rasterCells (n m : ℕ) : List (ℕ × ℕ) :=
  (List.range n).flatMap fun i => (List.range m).map fun j => (i, j)

/-- One raster-scan step of component collection: a void cell not yet
covered by a collected component starts a new flood fill. -/
def compStep (g : Arr2 Bool) (acc : List (Finset (ℕ × ℕ))) (p : ℕ × ℕ) :
    List (Finset (ℕ × ℕ)) :=
  if get2 g p.1 p.2 && !(acc.any fun c => decide (p ∈ c)) then
    acc ++ [breach adj2b (voidSet2 g) {p} (g.n * g.m)]
  else acc

/-- Connected components (4-connectivity) of a 2-D boolean image, in
label order: scan the cells in raster order and flood-fill each void
cell not yet assigned to a component. -/
def componentsOf2 (g : Arr2 Bool) : List (Finset (ℕ × ℕ)) :=
  (rasterCells g.n g.m).foldl (compStep g) []

def lmax (l : List ℕ) : ℕ := l.foldl max 0

def lmin (l : List ℕ) : ℕ :=
  match l with
  | [] => 0
  | a :: t => t.foldl min a

/-- `max(item.stop - item.start for item in find_objects(labels)[i])`:
the longest side of the minimal bounding box of a component (a slice has
`start` the least and `stop` one past the greatest coordinate). -/
def compLen (c : Finset (ℕ × ℕ)) : ℕ :=
  let is := c.image Prod.fst
  let js := c.image Prod.snd
  let imax := is.fold max 0 id
  let imin := is.fold min imax id
  let jmax := js.fold max 0 id
  let jmin := js.fold min jmax id
  max (imax + 1 - imin) (jmax + 1 - jmin)

/-- `chord_length_distribution(im)` on a 2-D image: one bounding-box
longest side per connected component, in label order. -/
def chord_length_distribution (g : Arr2 Bool) : List ℕ :=
  (componentsOf2 g).map compLen

/-! ### two_point_correlation_bf -/

/-- `range(0, stop, step)` for a positive step: `0, step, 2*step, ...`
strictly below `stop`. -/
def pyRangePos (stop step : ℕ) : List ℕ :=
  (List.range ((stop + step - 1) / step)).map (· * step)

/-- `range(0, stop, step)` for an arbitrary integer step and `stop ≥ 0`:
a zero step raises `ValueError`, a negative step gives the empty range. -/
def pyRangeE (stop : ℕ) (step : ℤ) : Except PyErr (List ℕ) :=
  if step = 0 then .error .valueError
  else if step < 0 then .ok []
  else .ok (pyRangePos stop step.toNat)

/-- Squared Euclidean distance of two 2-D sample points.  Distances in
the source are reals `sqrt q` with `q` this natural number; binning
against integer edges `e ≤ sqrt q < e'` is equivalent to
`e^2 ≤ q < e'^2`, so the histograms are computed on squared values. -/
def sqDist2 (p q : ℕ × ℕ) : ℕ :=
  (((p.1 : ℤ) - q.1) ^ 2 + ((p.2 : ℤ) - q.2) ^ 2).toNat

def sqDist3 (p q : ℕ × ℕ × ℕ) : ℕ :=
  (((p.1 : ℤ) - q.1) ^ 2 + ((p.2.1 : ℤ) - q.2.1) ^ 2 +
    ((p.2.2 : ℤ) - q.2.2) ^ 2).toNat

/-- `np.histogram(data, bins=edges)` on squared distances: one count per
consecutive pair of edges, half-open bins except the last, which is
closed. -/
def histCounts (edges : List ℕ) (data : List ℕ) : List ℕ :=
  let nb := edges.length - 1
  (List.range nb).map fun i =>
    data.countP fun q =>
      decide ((edges.getD i 0) ^ 2 ≤ q ∧
        (if i + 1 = nb then q ≤ (edges.getD (i + 1) 0) ^ 2
         else q < (edges.getD (i + 1) 0) ^ 2))

/-- Sample points of the 2-D meshgrid in flattening order (outer loop
over the second range, inner over the first, matching `meshgrid`'s `xy`
indexing). -/
def meshPts2 (r0 r1 : List ℕ) : List (ℕ × ℕ) :=
  r1.flatMap fun y => r0.map fun x => (x, y)

def meshPts3 (r0 r1 r2 : List ℕ) : List (ℕ × ℕ × ℕ) :=
  r1.flatMap fun y => r0.flatMap fun x => r2.map fun z => (x, y, z)

/-- Bin edges, histogram `h1` (rows with void first point) and histogram
`h2` (both points void) computed by `two_point_correlation_bf`. -/
def tpcData (g : NdB) (spacing : ℤ) :
    Except PyErr (List ℕ × List ℕ × List ℕ) :=
  match g with
  | .g2 a =>
      (pyRangeE a.n spacing).bind fun r0 =>
      (pyRangeE a.m spacing).bind fun r1 =>
      (pyRangeE (min a.n a.m / 2) spacing).bind fun edges =>
      let pts := meshPts2 r0 r1
      let hitsPts := pts.filter fun p => get2 a p.1 p.2
      let dataA := hitsPts.flatMap fun p => pts.map fun q => sqDist2 p q
      let dataB := hitsPts.flatMap fun p => hitsPts.map fun q => sqDist2 p q
      .ok (edges, histCounts edges dataA, histCounts edges dataB)
  | .g3 a =>
      (pyRangeE a.n spacing).bind fun r0 =>
      (pyRangeE a.m spacing).bind fun r1 =>
      (pyRangeE a.p spacing).bind fun r2 =>
      (pyRangeE (min a.n (min a.m a.p) / 2) spacing).bind fun edges =>
      let pts := meshPts3 r0 r1 r2
      let hitsPts := pts.filter fun p => get3 a p.1 p.2.1 p.2.2
      let dataA := hitsPts.flatMap fun p => pts.map fun q => sqDist3 p q
      let dataB := hitsPts.flatMap fun p => hitsPts.map fun q => sqDist3 p q
      .ok (edges, histCounts edges dataA, histCounts edges dataB)
  | .g4 _ => .error .nameError  -- `crds` never assigned: NameError at cdist

/-- Result of `two_point_correlation_bf`: `(h2[1][:-1], h2[0]/h1[0])`.
`np.true_divide` of counts; a `0/0` bin is NaN in numpy and the junk
value `0` here (no claim depends on the value of an empty bin). -/
structure TpcRes where
  xs : List ℕ
  ys : List ℚ
  deriving DecidableEq, Repr

def two_point_correlation_bf (g : NdB) (spacing : ℤ) :
    Except PyErr TpcRes :=
  match tpcData g spacing with
  | .error e => .error e
  | .ok (edges, hA, hB) =>
      .ok ⟨edges.dropLast,
        List.zipWith (fun (b a : ℕ) => (b : ℚ) / (a : ℚ)) hB hA⟩

/-! ### Grids used in concrete scenarios -/

/-- An `n × m` image whose only void cells form one horizontal run of
`L` cells in row `r`, starting at column `c`. -/
def hRun (n m r c L : ℕ) : Arr2 Bool :=
  mk2 n m fun i j => decide (i = r ∧ c ≤ j ∧ j < c + L)

/-- An `n × m` image whose only void cells form one vertical run of `L`
cells in column `c`, starting at row `r`. -/
def vRun (n m r c L : ℕ) : Arr2 Bool :=
  mk2 n m fun i j => decide (j = c ∧ r ≤ i ∧ i < r + L)

/-- Every in-range cell of the image is void. -/
def allVoidB : NdB → Prop
  | .g2 a => ∀ i < a.n, ∀ j < a.m, get2 a i j = true
  | .g3 a => ∀ i < a.n, ∀ j < a.m, ∀ k < a.p, get3 a i j k = true
  | .g4 a => ∀ i < a.n, ∀ j < a.m, ∀ k < a.p, ∀ l < a.q, get4 a i j k l = true

instance : (g : NdB) → Decidable (allVoidB g)
  | .g2 a => inferInstanceAs
      (Decidable (∀ i < a.n, ∀ j < a.m, get2 a i j = true))
  | .g3 a => inferInstanceAs
      (Decidable (∀ i < a.n, ∀ j < a.m, ∀ k < a.p, get3 a i j k = true))
  | .g4 a => inferInstanceAs
      (Decidable (∀ i < a.n, ∀ j < a.m, ∀ k < a.p, ∀ l < a.q,
        get4 a i j k l = true))

/-- Number of `True` cells of a 2-D image. -/
def countTrue2 (g : Arr2 Bool) : ℕ :=
  (g.data.map fun row => row.countP fun b => b).sum

/-! ## Lemmas about the array model -/

theorem getD_range_map {β : Type} (c : ℕ) (f : ℕ → β) (d : β) (i : ℕ) :
    ((List.range c).map f).getD i d = if i < c then f i else d := by
  by_cases h : i < c
  · simp [List.getD_eq_getElem?_getD, List.getElem?_map,
      List.getElem?_range, h]
  · rw [List.getD_eq_getElem?_getD,
      List.getElem?_eq_none (by simp [List.length_range]; omega)]
    simp [h]

theorem get2_mk2 (n m : ℕ) (f : ℕ → ℕ → Bool) (i j : ℕ) :
    get2 (mk2 n m f) i j = if i < n ∧ j < m then f i j else false := by
  show (((List.range n).map fun i =>
      (List.range m).map fun j => f i j).getD i []).getD j false = _
  rw [getD_range_map]
  by_cases hi : i < n
  · rw [if_pos hi, getD_range_map]
    by_cases hj : j < m
    · rw [if_pos hj, if_pos ⟨hi, hj⟩]
    · rw [if_neg hj, if_neg (by tauto)]
  · rw [if_neg hi, if_neg (by tauto)]
    rfl

theorem get3_mk3 (n m p : ℕ) (f : ℕ → ℕ → ℕ → Bool) (i j k : ℕ) :
    get3 (mk3 n m p f) i j k =
      if i < n ∧ j < m ∧ k < p then f i j k else false := by
  show ((((List.range n).map fun i => (List.range m).map fun j =>
      (List.range p).map fun k => f i j k).getD i []).getD j []).getD k
      false = _
  rw [getD_range_map]
  by_cases hi : i < n
  · rw [if_pos hi, getD_range_map]
    by_cases hj : j < m
    · rw [if_pos hj, getD_range_map]
      by_cases hk : k < p
      · rw [if_pos hk, if_pos ⟨hi, hj, hk⟩]
      · rw [if_neg hk, if_neg (by tauto)]
    · rw [if_neg hj, if_neg (by tauto)]
      rfl
  · rw [if_neg hi, if_neg (by tauto)]
    rfl

theorem get3N_mk3N (n m p : ℕ) (f : ℕ → ℕ → ℕ → ℕ) (i j k : ℕ) :
    get3N (mk3N n m p f) i j k =
      if i < n ∧ j < m ∧ k < p then f i j k else 0 := by
  show ((((List.range n).map fun i => (List.range m).map fun j =>
      (List.range p).map fun k => f i j k).getD i []).getD j []).getD k 0
      = _
  rw [getD_range_map]
  by_cases hi : i < n
  · rw [if_pos hi, getD_range_map]
    by_cases hj : j < m
    · rw [if_pos hj, getD_range_map]
      by_cases hk : k < p
      · rw [if_pos hk, if_pos ⟨hi, hj, hk⟩]
      · rw [if_neg hk, if_neg (by tauto)]
    · rw [if_neg hj, if_neg (by tauto)]
      rfl
  · rw [if_neg hi, if_neg (by tauto)]
    rfl

theorem get4N_mk4N (n m p q : ℕ) (f : ℕ → ℕ → ℕ → ℕ → ℕ) (i j k l : ℕ) :
    get4N (mk4N n m p q f) i j k l =
      if i < n ∧ j < m ∧ k < p ∧ l < q then f i j k l else 0 := by
  show (((((List.range n).map fun i => (List.range m).map fun j =>
      (List.range p).map fun k => (List.range q).map fun l =>
      f i j k l).getD i []).getD j []).getD k []).getD l 0 = _
  rw [getD_range_map]
  by_cases hi : i < n
  · rw [if_pos hi, getD_range_map]
    by_cases hj : j < m
    · rw [if_pos hj, getD_range_map]
      by_cases hk : k < p
      · rw [if_pos hk, getD_range_map]
        by_cases hl : l < q
        · rw [if_pos hl, if_pos ⟨hi, hj, hk, hl⟩]
        · rw [if_neg hl, if_neg (by tauto)]
      · rw [if_neg hk, if_neg (by tauto)]
        rfl
    · rw [if_neg hj, if_neg (by tauto)]
      rfl
  · rw [if_neg hi, if_neg (by tauto)]
    rfl

theorem get2_mk2_true {n m : ℕ} {f : ℕ → ℕ → Bool} {i j : ℕ}
    (h : get2 (mk2 n m f) i j = true) : f i j = true := by
  rw [get2_mk2] at h
  by_cases hij : i < n ∧ j < m
  · rwa [if_pos hij] at h
  · rw [if_neg hij] at h; exact absurd h (by simp)

theorem get3_mk3_true {n m p : ℕ} {f : ℕ → ℕ → ℕ → Bool} {i j k : ℕ}
    (h : get3 (mk3 n m p f) i j k = true) : f i j k = true := by
  rw [get3_mk3] at h
  by_cases hijk : i < n ∧ j < m ∧ k < p
  · rwa [if_pos hijk] at h
  · rw [if_neg hijk] at h; exact absurd h (by simp)

/-! ## Lemmas about the bounded flood fill -/

theorem subset_bstep {α : Type} [DecidableEq α] (adjb : α → α → Bool)
    (mask r : Finset α) : r ⊆ bstep adjb mask r :=
  Finset.subset_union_left

theorem bstep_subset {α : Type} [DecidableEq α] (adjb : α → α → Bool)
    (mask r : Finset α) : bstep adjb mask r ⊆ r ∪ mask :=
  Finset.union_subset_union_right (Finset.filter_subset _ _)

theorem breach_succ {α : Type} [DecidableEq α] (adjb : α → α → Bool)
    (mask start : Finset α) (k : ℕ) :
    breach adjb mask start (k + 1) =
      bstep adjb mask (breach adjb mask start k) := by
  unfold breach
  exact Function.iterate_succ_apply' _ _ _

theorem start_subset_breach {α : Type} [DecidableEq α] (adjb : α → α → Bool)
    (mask start : Finset α) (k : ℕ) : start ⊆ breach adjb mask start k := by
  induction k with
  | zero => exact fun _ h => h
  | succ k ih =>
      rw [breach_succ]
      exact ih.trans (subset_bstep _ _ _)

theorem breach_subset {α : Type} [DecidableEq α] (adjb : α → α → Bool)
    (mask start : Finset α) (k : ℕ) :
    breach adjb mask start k ⊆ start ∪ mask := by
  induction k with
  | zero => exact Finset.subset_union_left
  | succ k ih =>
      rw [breach_succ]
      refine (bstep_subset _ _ _).trans ?_
      exact Finset.union_subset (ih.trans (le_refl _)) Finset.subset_union_right

theorem breach_mono {α : Type} [DecidableEq α] (adjb : α → α → Bool)
    (mask start : Finset α) {k k' : ℕ} (h : k ≤ k') :
    breach adjb mask start k ⊆ breach adjb mask start k' := by
  induction k' with
  | zero =>
      have : k = 0 := Nat.le_zero.mp h
      subst this; exact fun _ h => h
  | succ k' ih =>
      rcases Nat.lt_or_ge k (k' + 1) with h' | h'
      · rw [breach_succ]
        exact (ih (by omega)).trans (subset_bstep _ _ _)
      · have : k = k' + 1 := by omega
        subst this; exact fun _ h => h

theorem mem_breach_succ_of_adj {α : Type} [DecidableEq α]
    {adjb : α → α → Bool} {mask start : Finset α} {p q : α} {k : ℕ}
    (hq : q ∈ mask) (hp : p ∈ breach adjb mask start k)
    (h : adjb p q = true) : q ∈ breach adjb mask start (k + 1) := by
  rw [breach_succ]
  unfold bstep
  refine Finset.mem_union_right _ ?_
  rw [Finset.mem_filter]
  exact ⟨hq, p, hp, h⟩

/-- A flood fill whose mask is a single adjacency-connected line
`f 0, f 1, ..., f (len-1)` and whose seed is a point of the line reaches
the whole line, provided the iteration bound is at least `len - 1`. -/
theorem breach_line {α : Type} [DecidableEq α] (adjb : α → α → Bool)
    (S : Finset α) (f : ℕ → α) (len : ℕ)
    (hS : ∀ x, x ∈ S ↔ ∃ t, t < len ∧ x = f t)
    (hadj : ∀ t, t + 1 < len →
      adjb (f t) (f (t + 1)) = true ∧ adjb (f (t + 1)) (f t) = true)
    (t0 : ℕ) (ht0 : t0 < len) (k : ℕ) (hk : len ≤ k + 1) :
    breach adjb S {f t0} k = S := by
  apply Finset.Subset.antisymm
  · refine (breach_subset _ _ _ _).trans ?_
    refine Finset.union_subset ?_ (fun x h => h)
    intro x hx
    rw [Finset.mem_singleton] at hx
    exact (hS x).mpr ⟨t0, ht0, hx⟩
  · intro x hx
    obtain ⟨t, ht, rfl⟩ := (hS x).mp hx
    rcases Nat.le_total t0 t with hle | hle
    · -- walk right from `t0` to `t`
      have key : ∀ d, t0 + d < len →
          f (t0 + d) ∈ breach adjb S {f t0} d := by
        intro d
        induction d with
        | zero =>
            intro _
            exact start_subset_breach _ _ _ _ (Finset.mem_singleton_self _)
        | succ d ih =>
            intro hd
            have hmem : f (t0 + d + 1) ∈ S :=
              (hS _).mpr ⟨t0 + d + 1, by omega, rfl⟩
            have hstep := (hadj (t0 + d) (by omega)).1
            exact mem_breach_succ_of_adj hmem (ih (by omega)) hstep
      have := key (t - t0) (by omega)
      rw [show t0 + (t - t0) = t by omega] at this
      exact breach_mono _ _ _ (by omega) this
    · -- walk left from `t0` down to `t`
      have key : ∀ d, d ≤ t0 →
          f (t0 - d) ∈ breach adjb S {f t0} d := by
        intro d
        induction d with
        | zero =>
            intro _
            exact start_subset_breach _ _ _ _ (Finset.mem_singleton_self _)
        | succ d ih =>
            intro hd
            have hmem : f (t0 - (d + 1)) ∈ S :=
              (hS _).mpr ⟨t0 - (d + 1), by omega, rfl⟩
            have hstep := (hadj (t0 - (d + 1)) (by omega)).2
            rw [show t0 - (d + 1) + 1 = t0 - d by omega] at hstep
            exact mem_breach_succ_of_adj hmem (ih (by omega)) hstep
      have := key (t0 - t) (by omega)
      rw [show t0 - (t0 - t) = t by omega] at this
      exact breach_mono _ _ _ (by omega) this

/-! ## Lemmas about clear_border and the chord pipeline -/

theorem mem_voidSet2 (g : Arr2 Bool) (p : ℕ × ℕ) :
    p ∈ voidSet2 g ↔ p.1 < g.n ∧ p.2 < g.m ∧ get2 g p.1 p.2 = true := by
  simp [voidSet2, Finset.mem_filter, Finset.mem_product, and_assoc]

theorem get2_clearBorder2 (g : Arr2 Bool) (i j : ℕ)
    (h : get2 (clearBorder2 g) i j = true) : get2 g i j = true := by
  have := get2_mk2_true h
  exact (Bool.and_eq_true_iff.mp this).1

theorem get3_clearBorder3 (g : Arr3 Bool) (i j k : ℕ)
    (h : get3 (clearBorder3 g) i j k = true) : get3 g i j k = true := by
  have := get3_mk3_true h
  exact (Bool.and_eq_true_iff.mp this).1

theorem get2_swap2_true {eff : ℕ} {g : Arr2 Bool} {i j : ℕ}
    (h : get2 (swap2 eff g) i j = true) :
    (eff = 1 ∧ get2 g j i = true) ∨ (eff ≠ 1 ∧ get2 g i j = true) := by
  by_cases he : eff = 1
  · refine Or.inl ⟨he, ?_⟩
    rw [swap2, if_pos he] at h
    have h2 := get2_mk2_true h
    exact h2
  · refine Or.inr ⟨he, ?_⟩
    rwa [swap2, if_neg he] at h

theorem get3_swap3_true {eff : ℕ} {g : Arr3 Bool} {i j k : ℕ}
    (h : get3 (swap3 eff g) i j k = true) :
    (eff = 1 ∧ get3 g j i k = true) ∨ (eff = 2 ∧ get3 g k j i = true) ∨
    (eff ≠ 1 ∧ eff ≠ 2 ∧ get3 g i j k = true) := by
  by_cases h1 : eff = 1
  · refine Or.inl ⟨h1, ?_⟩
    rw [swap3, if_pos h1] at h
    have h2 := get3_mk3_true h
    exact h2
  · by_cases h2 : eff = 2
    · refine Or.inr (Or.inl ⟨h2, ?_⟩)
      rw [swap3, if_neg h1, if_pos h2] at h
      have h3 := get3_mk3_true h
      exact h3
    · refine Or.inr (Or.inr ⟨h1, h2, ?_⟩)
      rwa [swap3, if_neg h1, if_neg h2] at h

theorem applyChords2_subset {g : Arr2 Bool} {spacing : ℕ} {axis : ℤ}
    {trim : Bool} {g' : Arr2 Bool}
    (h : applyChords2 g spacing axis trim = .ok g') (i j : ℕ)
    (hij : get2 g' i j = true) : get2 g i j = true := by
  simp only [applyChords2] at h
  by_cases h1 : axis < -2 ∨ 2 ≤ axis
  · rw [if_pos h1] at h; exact Except.noConfusion h
  · rw [if_neg h1] at h
    set eff := (axis % 2).toNat with heff
    set g1 := swap2 eff g with hg1
    set chords := mk2 g1.n g1.m
      (fun i j => get2 g1 i j && decide (j % (4 + 2 * spacing) = 0))
      with hch
    by_cases h2 : g1.n = 1 ∨ g1.m = 1
    · rw [if_pos h2] at h; exact Except.noConfusion h
    · rw [if_neg h2] at h
      have hg' : swap2 eff (if trim then clearBorder2 chords else chords)
          = g' := Except.ok.inj h
      rw [← hg'] at hij
      have hT : ∀ a b,
          get2 (if trim then clearBorder2 chords else chords) a b = true →
          get2 g1 a b = true := by
        intro a b hb
        by_cases ht : trim
        · rw [if_pos ht] at hb
          have := get2_clearBorder2 _ _ _ hb
          rw [hch] at this
          exact (Bool.and_eq_true_iff.mp (get2_mk2_true this)).1
        · rw [if_neg ht] at hb
          rw [hch] at hb
          exact (Bool.and_eq_true_iff.mp (get2_mk2_true hb)).1
      rcases get2_swap2_true hij with ⟨he, h3⟩ | ⟨he, h3⟩
      · have h4 := hT _ _ h3
        rcases get2_swap2_true h4 with ⟨_, h5⟩ | ⟨he', _⟩
        · exact h5
        · exact absurd he he'
      · have h4 := hT _ _ h3
        rcases get2_swap2_true h4 with ⟨he', _⟩ | ⟨_, h5⟩
        · exact absurd he' he
        · exact h5

theorem applyChords3_subset {g : Arr3 Bool} {spacing : ℕ} {axis : ℤ}
    {trim : Bool} {g' : Arr3 Bool}
    (h : applyChords3 g spacing axis trim = .ok g') (i j k : ℕ)
    (hijk : get3 g' i j k = true) : get3 g i j k = true := by
  simp only [applyChords3] at h
  by_cases h1 : axis < -3 ∨ 3 ≤ axis
  · rw [if_pos h1] at h; exact Except.noConfusion h
  · rw [if_neg h1] at h
    set eff := (axis % 3).toNat with heff
    set g1 := swap3 eff g with hg1
    set chords := mk3 g1.n g1.m g1.p (fun i j k => get3 g1 i j k &&
      decide (j % (4 + 2 * spacing) = 0 ∧ k % (4 + 2 * spacing) = 0))
      with hch
    by_cases h2 : g1.n = 1 ∨ g1.m = 1 ∨ g1.p = 1
    · rw [if_pos h2] at h; exact Except.noConfusion h
    · rw [if_neg h2] at h
      have hg' : swap3 eff (if trim then clearBorder3 chords else chords)
          = g' := Except.ok.inj h
      rw [← hg'] at hijk
      have hT : ∀ a b c,
          get3 (if trim then clearBorder3 chords else chords) a b c = true →
          get3 g1 a b c = true := by
        intro a b c hb
        by_cases ht : trim
        · rw [if_pos ht] at hb
          have := get3_clearBorder3 _ _ _ _ hb
          rw [hch] at this
          exact (Bool.and_eq_true_iff.mp (get3_mk3_true this)).1
        · rw [if_neg ht] at hb
          rw [hch] at hb
          exact (Bool.and_eq_true_iff.mp (get3_mk3_true hb)).1
      rcases get3_swap3_true hijk with ⟨he, h3⟩ | ⟨he, h3⟩ | ⟨he1, he2, h3⟩
      · have h4 := hT _ _ _ h3
        rcases get3_swap3_true h4 with ⟨_, h5⟩ | ⟨he', _⟩ | ⟨he', _, _⟩
        · exact h5
        · exact absurd he (by rw [he']; omega)
        · exact absurd he he'
      · have h4 := hT _ _ _ h3
        rcases get3_swap3_true h4 with ⟨he', _⟩ | ⟨_, h5⟩ | ⟨_, he', _⟩
        · exact absurd he (by rw [he']; omega)
        · exact h5
        · exact absurd he he'
      · have h4 := hT _ _ _ h3
        rcases get3_swap3_true h4 with ⟨he', _⟩ | ⟨he', _⟩ | ⟨_, _, h5⟩
        · exact absurd he' he1
        · exact absurd he' he2
        · exact h5

theorem get3N_mk3N_ne {n m p : ℕ} {f : ℕ → ℕ → ℕ → ℕ} {i j k : ℕ}
    (h : get3N (mk3N n m p f) i j k ≠ 0) : f i j k ≠ 0 := by
  rw [get3N_mk3N] at h
  by_cases hc : i < n ∧ j < m ∧ k < p
  · rwa [if_pos hc] at h
  · rw [if_neg hc] at h; exact absurd rfl h

theorem get4N_mk4N_ne {n m p q : ℕ} {f : ℕ → ℕ → ℕ → ℕ → ℕ} {i j k l : ℕ}
    (h : get4N (mk4N n m p q f) i j k l ≠ 0) : f i j k l ≠ 0 := by
  rw [get4N_mk4N] at h
  by_cases hc : i < n ∧ j < m ∧ k < p ∧ l < q
  · rwa [if_pos hc] at h
  · rw [if_neg hc] at h; exact absurd rfl h

theorem applyChords3D_g3_subset {a : Arr3 Bool} {spacing : ℕ} {trim : Bool}
    {l : Arr3 ℕ} (h : apply_chords_3D (.g3 a) spacing trim = .ok (.l3 l))
    (i j k : ℕ) (hne : get3N l i j k ≠ 0) : get3 a i j k = true := by
  simp only [apply_chords_3D] at h
  set ch := mk3N a.n a.m a.p
    (fun i j k => if get3 a i j k then chLabel3 spacing i j k else 0)
    with hchdef
  have hl : (if trim then trimLabel3 ch else ch) = l :=
    NdL.l3.inj (Except.ok.inj h)
  rw [← hl] at hne
  have hcore : get3N ch i j k ≠ 0 → get3 a i j k = true := by
    intro hc
    have := get3N_mk3N_ne (by rw [hchdef] at hc; exact hc)
    by_cases hv : get3 a i j k = true
    · exact hv
    · rw [if_neg (by simpa using hv)] at this
      exact absurd rfl this
  by_cases ht : trim
  · rw [if_pos ht] at hne
    simp only [trimLabel3] at hne
    have := get3N_mk3N_ne hne
    by_cases hr : (i, j, k) ∈ borderReach3 (mk3 ch.n ch.m ch.p
        fun i j k => decide (0 < get3N ch i j k))
    · rw [if_pos hr] at this; exact absurd rfl this
    · rw [if_neg hr] at this; exact hcore this
  · rw [if_neg ht] at hne
    exact hcore hne

theorem applyChords3D_g4_subset {a : Arr4 Bool} {spacing : ℕ} {trim : Bool}
    {l : Arr4 ℕ} (h : apply_chords_3D (.g4 a) spacing trim = .ok (.l4 l))
    (i j k m4 : ℕ) (hne : get4N l i j k m4 ≠ 0) :
    get4 a i j k m4 = true := by
  simp only [apply_chords_3D] at h
  set ch := mk4N a.n a.m a.p a.q
    (fun i j k l => if get4 a i j k l then chLabel3 spacing i j k else 0)
    with hchdef
  have hl : (if trim then trimLabel4 ch else ch) = l :=
    NdL.l4.inj (Except.ok.inj h)
  rw [← hl] at hne
  have hcore : get4N ch i j k m4 ≠ 0 → get4 a i j k m4 = true := by
    intro hc
    have := get4N_mk4N_ne (by rw [hchdef] at hc; exact hc)
    by_cases hv : get4 a i j k m4 = true
    · exact hv
    · rw [if_neg (by simpa using hv)] at this
      exact absurd rfl this
  by_cases ht : trim
  · rw [if_pos ht] at hne
    simp only [trimLabel4] at hne
    have := get4N_mk4N_ne hne
    by_cases hr : (i, j, k, m4) ∈ borderReach4 (mk4 ch.n ch.m ch.p ch.q
        fun i j k l => decide (0 < get4N ch i j k l))
    · rw [if_pos hr] at this; exact absurd rfl this
    · rw [if_neg hr] at this; exact hcore this
  · rw [if_neg ht] at hne
    exact hcore hne

/-! ## Pattern lemmas for apply_chords_3D -/

theorem mod_ne_02 {a s : ℕ} (h0 : a % s = 0) (h2 : a % s = 2) : False := by
  rw [h0] at h2
  omega

theorem patX_patY_disjoint {s i j k : ℕ} :
    ¬ (patX s j k ∧ patY s i k) := by
  rintro ⟨hX, hY⟩
  exact mod_ne_02 hX.2 hY.2

theorem patX_patZ_disjoint {s i j k : ℕ} :
    ¬ (patX s j k ∧ patZ s i j) := by
  rintro ⟨hX, hZ⟩
  exact mod_ne_02 hX.1 hZ.2

theorem patY_patZ_disjoint {s i j k : ℕ} :
    ¬ (patY s i k ∧ patZ s i j) := by
  rintro ⟨hY, hZ⟩
  exact mod_ne_02 hY.1 hZ.1

theorem chLabel3_eq_one {spacing i j k : ℕ} :
    chLabel3 spacing i j k = 1 ↔ patX (4 + 2 * spacing) j k := by
  by_cases hZ : patZ (4 + 2 * spacing) i j
  · simp only [chLabel3, if_pos hZ]
    constructor
    · omega
    · intro hX
      exact absurd ⟨hX, hZ⟩ (@patX_patZ_disjoint _ _ _ k)
  · by_cases hY : patY (4 + 2 * spacing) i k
    · simp only [chLabel3, if_neg hZ, if_pos hY]
      constructor
      · omega
      · intro hX
        exact absurd ⟨hX, hY⟩ (@patX_patY_disjoint _ i _ _)
    · by_cases hX : patX (4 + 2 * spacing) j k
      · simp [chLabel3, if_neg hZ, if_neg hY, if_pos hX, hX]
      · simp [chLabel3, if_neg hZ, if_neg hY, if_neg hX, hX]

theorem chLabel3_eq_two {spacing i j k : ℕ} :
    chLabel3 spacing i j k = 2 ↔ patY (4 + 2 * spacing) i k := by
  by_cases hZ : patZ (4 + 2 * spacing) i j
  · simp only [chLabel3, if_pos hZ]
    constructor
    · omega
    · intro hY
      exact absurd ⟨hY, hZ⟩ (@patY_patZ_disjoint _ _ _ k)
  · by_cases hY : patY (4 + 2 * spacing) i k
    · simp [chLabel3, if_neg hZ, if_pos hY, hY]
    · by_cases hX : patX (4 + 2 * spacing) j k
      · simp only [chLabel3, if_neg hZ, if_neg hY, if_pos hX]
        constructor
        · omega
        · intro h; exact absurd h hY
      · simp only [chLabel3, if_neg hZ, if_neg hY, if_neg hX]
        constructor
        · omega
        · intro h; exact absurd h hY

theorem chLabel3_eq_three {spacing i j k : ℕ} :
    chLabel3 spacing i j k = 3 ↔ patZ (4 + 2 * spacing) i j := by
  by_cases hZ : patZ (4 + 2 * spacing) i j
  · simp [chLabel3, if_pos hZ, hZ]
  · by_cases hY : patY (4 + 2 * spacing) i k
    · simp only [chLabel3, if_neg hZ, if_pos hY]
      constructor
      · omega
      · intro h; exact absurd h hZ
    · by_cases hX : patX (4 + 2 * spacing) j k
      · simp only [chLabel3, if_neg hZ, if_neg hY, if_pos hX]
        constructor
        · omega
        · intro h; exact absurd h hZ
      · simp only [chLabel3, if_neg hZ, if_neg hY, if_neg hX]
        constructor
        · omega
        · intro h; exact absurd h hZ

theorem chLabel3_le_three (spacing i j k : ℕ) :
    chLabel3 spacing i j k ≤ 3 := by
  by_cases hZ : patZ (4 + 2 * spacing) i j
  · simp [chLabel3, if_pos hZ]
  · by_cases hY : patY (4 + 2 * spacing) i k
    · simp [chLabel3, if_neg hZ, if_pos hY]
    · by_cases hX : patX (4 + 2 * spacing) j k
      · simp [chLabel3, if_neg hZ, if_neg hY, if_pos hX]
      · simp [chLabel3, if_neg hZ, if_neg hY, if_neg hX]

/-! ## Claim theorems -/

/-- C1: on a fully void 10 x 10 grid, `apply_chords` with `spacing = 0`,
`axis = 0`, `trim_edges = False` marks exactly the voxels in columns
0, 4 and 8, across all 10 rows: 30 marked voxels and no others. -/
theorem claim1_chords_10x10_pattern :
    applyChords2 (fullVoid2 10 10) 0 0 false =
      .ok (mk2 10 10 fun _ j => decide (j = 0 ∨ j = 4 ∨ j = 8)) ∧
    countTrue2 (mk2 10 10 fun _ j => decide (j = 0 ∨ j = 4 ∨ j = 8)) = 30
    := by decide

/-- C2: on the same grid with `trim_edges = True` every chord spans the
full height, touches the border and is removed: the result is the
all-`False` mask. -/
theorem claim2_chords_10x10_trimmed_empty :
    applyChords2 (fullVoid2 10 10) 0 0 true =
      .ok (mk2 10 10 fun _ _ => false) := by decide

/-- C3: for every `spacing ≥ 0` the three per-axis sampling patterns of
`apply_chords_3D` are pairwise disjoint, the probe value `chLabel3` is
1, 2 or 3 exactly on the X, Y, Z pattern respectively (and at most 3),
and every voxel of a returned label array is either 0 or carries the
probe value of its own position — hence each nonzero label comes from
exactly one axis pattern. -/
theorem claim3_sampling_grids_disjoint :
    (∀ spacing i j k : ℕ,
      (¬ (patX (4 + 2 * spacing) j k ∧ patY (4 + 2 * spacing) i k)) ∧
      (¬ (patX (4 + 2 * spacing) j k ∧ patZ (4 + 2 * spacing) i j)) ∧
      (¬ (patY (4 + 2 * spacing) i k ∧ patZ (4 + 2 * spacing) i j)) ∧
      (chLabel3 spacing i j k = 1 ↔ patX (4 + 2 * spacing) j k) ∧
      (chLabel3 spacing i j k = 2 ↔ patY (4 + 2 * spacing) i k) ∧
      (chLabel3 spacing i j k = 3 ↔ patZ (4 + 2 * spacing) i j) ∧
      chLabel3 spacing i j k ≤ 3) ∧
    (∀ (a : Arr3 Bool) (spacing : ℕ) (trim : Bool) (l : Arr3 ℕ),
      apply_chords_3D (.g3 a) spacing trim = .ok (.l3 l) →
      ∀ i j k, get3N l i j k = 0 ∨
        get3N l i j k = chLabel3 spacing i j k) := by
  constructor
  · intro spacing i j k
    exact ⟨patX_patY_disjoint, patX_patZ_disjoint, patY_patZ_disjoint,
      chLabel3_eq_one, chLabel3_eq_two, chLabel3_eq_three,
      chLabel3_le_three spacing i j k⟩
  · intro a spacing trim l h i j k
    simp only [apply_chords_3D] at h
    set ch := mk3N a.n a.m a.p
      (fun i j k => if get3 a i j k then chLabel3 spacing i j k else 0)
      with hchdef
    have hl : (if trim then trimLabel3 ch else ch) = l :=
      NdL.l3.inj (Except.ok.inj h)
    rw [← hl]
    have hcore : get3N ch i j k = 0 ∨
        get3N ch i j k = chLabel3 spacing i j k := by
      rw [hchdef, get3N_mk3N]
      by_cases hc : i < a.n ∧ j < a.m ∧ k < a.p
      · rw [if_pos hc]
        by_cases hv : get3 a i j k = true
        · rw [if_pos hv]; exact Or.inr rfl
        · rw [if_neg hv]; exact Or.inl rfl
      · rw [if_neg hc]; exact Or.inl rfl
    by_cases ht : trim
    · rw [if_pos ht]
      simp only [trimLabel3]
      rw [get3N_mk3N]
      by_cases hc : i < ch.n ∧ j < ch.m ∧ k < ch.p
      · rw [if_pos hc]
        by_cases hr : (i, j, k) ∈ borderReach3 (mk3 ch.n ch.m ch.p
            fun i j k => decide (0 < get3N ch i j k))
        · rw [if_pos hr]; exact Or.inl rfl
        · rw [if_neg hr]; exact hcore
      · rw [if_neg hc]; exact Or.inl rfl
    · rw [if_neg ht]
      exact hcore

/-- Witness for C3's second conjunct at a concrete call. -/
theorem claim3_witness :
    apply_chords_3D (.g3 (fullVoid3 3 3 3)) 0 false =
      .ok (.l3 (mk3N 3 3 3 fun i j k => chLabel3 0 i j k)) ∧
    (get3N (mk3N 3 3 3 fun i j k => chLabel3 0 i j k) 0 2 2 = 0 ∨
      get3N (mk3N 3 3 3 fun i j k => chLabel3 0 i j k) 0 2 2 =
        chLabel3 0 0 2 2) :=
  ⟨by decide,
    claim3_sampling_grids_disjoint.2 (fullVoid3 3 3 3) 0 false _
      (by decide) 0 2 2⟩

/-- C5 counterexample: a 1 x 5 grid is a 2-D grid, yet `apply_chords`
raises (numpy `squeeze` collapses the singleton dimension and the final
`moveaxis` fails) instead of returning an array of the input's shape. -/
theorem claim5_counterexample :
    applyChords2 (fullVoid2 1 5) 0 0 false = .error .axisError := by decide

/-- C5 (amended): for every 2-D or 3-D grid none of whose dimensions has
size 1 and every in-range axis, `apply_chords` succeeds and returns an
array of exactly the input's shape. -/
theorem claim5_shape_preserved :
    (∀ (g : Arr2 Bool) (spacing : ℕ) (axis : ℤ) (trim : Bool),
      -2 ≤ axis → axis < 2 → g.n ≠ 1 → g.m ≠ 1 →
      ∃ g', applyChords2 g spacing axis trim = .ok g' ∧
        g'.n = g.n ∧ g'.m = g.m) ∧
    (∀ (g : Arr3 Bool) (spacing : ℕ) (axis : ℤ) (trim : Bool),
      -3 ≤ axis → axis < 3 → g.n ≠ 1 → g.m ≠ 1 → g.p ≠ 1 →
      ∃ g', applyChords3 g spacing axis trim = .ok g' ∧
        g'.n = g.n ∧ g'.m = g.m ∧ g'.p = g.p) := by
  constructor
  · intro g spacing axis trim ha1 ha2 hn hm
    simp only [applyChords2]
    rw [if_neg (by omega)]
    set eff := (axis % 2).toNat with heff
    have hd : (swap2 eff g).n ≠ 1 ∧ (swap2 eff g).m ≠ 1 := by
      by_cases he : eff = 1 <;> simp [swap2, he, mk2] <;> tauto
    rw [if_neg (by tauto)]
    refine ⟨_, rfl, ?_, ?_⟩ <;>
      by_cases he : eff = 1 <;> by_cases ht : trim <;>
        simp [swap2, clearBorder2, mk2, he, ht]
  · intro g spacing axis trim ha1 ha2 hn hm hp
    simp only [applyChords3]
    rw [if_neg (by omega)]
    have he3 : (axis % 3).toNat = 0 ∨ (axis % 3).toNat = 1 ∨
        (axis % 3).toNat = 2 := by omega
    have hd : (swap3 (axis % 3).toNat g).n ≠ 1 ∧
        (swap3 (axis % 3).toNat g).m ≠ 1 ∧
        (swap3 (axis % 3).toNat g).p ≠ 1 := by
      rcases he3 with he | he | he <;> rw [he] <;>
        simp [swap3, mk3] <;> tauto
    rw [if_neg (by tauto)]
    refine ⟨_, rfl, ?_, ?_, ?_⟩ <;>
      rcases he3 with he | he | he <;> rw [he] <;> by_cases ht : trim <;>
        simp [swap3, clearBorder3, mk3, ht]

/-- Witness for C5's amended theorem at a concrete call. -/
theorem claim5_witness :
    (-2 : ℤ) ≤ -2 ∧ (-2 : ℤ) < 2 ∧ (fullVoid2 3 4).n ≠ 1 ∧
    (fullVoid2 3 4).m ≠ 1 ∧
    (∃ g', applyChords2 (fullVoid2 3 4) 1 (-2) true = .ok g' ∧
      g'.n = (fullVoid2 3 4).n ∧ g'.m = (fullVoid2 3 4).m) :=
  ⟨by decide, by decide, by decide, by decide,
    claim5_shape_preserved.1 (fullVoid2 3 4) 1 (-2) true (by decide)
      (by decide) (by decide) (by decide)⟩

/-- C6 counterexample: `axis = -1` is outside `[0, 2)` for a 2-D grid,
yet `apply_chords` does not fail: numpy wraps the negative index, so the
call behaves like `axis = 1` and returns normally. -/
theorem claim6_counterexample :
    applyChords2 (fullVoid2 4 4) 0 (-1) false =
      .ok (mk2 4 4 fun i _ => decide (i % 4 = 0)) := by decide

/-- C6 (amended): `apply_chords` fails with an IndexError (from
`dims2[axis] = 0`) exactly when `axis < -k` or `axis ≥ k` on a
`k`-dimensional grid; a negative axis in `[-k, 0)` wraps around as in
Python and is processed. -/
theorem claim6_axis_check :
    (∀ (g : Arr2 Bool) (spacing : ℕ) (axis : ℤ) (trim : Bool),
      applyChords2 g spacing axis trim = .error .indexError ↔
        (axis < -2 ∨ 2 ≤ axis)) ∧
    (∀ (g : Arr3 Bool) (spacing : ℕ) (axis : ℤ) (trim : Bool),
      applyChords3 g spacing axis trim = .error .indexError ↔
        (axis < -3 ∨ 3 ≤ axis)) := by
  constructor
  · intro g spacing axis trim
    constructor
    · intro h
      by_cases h1 : axis < -2 ∨ 2 ≤ axis
      · exact h1
      · exfalso
        simp only [applyChords2] at h
        rw [if_neg h1] at h
        by_cases h2 : (swap2 (axis % 2).toNat g).n = 1 ∨
            (swap2 (axis % 2).toNat g).m = 1
        · rw [if_pos h2] at h
          simp at h
        · rw [if_neg h2] at h
          simp at h
    · intro h1
      simp only [applyChords2]
      rw [if_pos h1]
  · intro g spacing axis trim
    constructor
    · intro h
      by_cases h1 : axis < -3 ∨ 3 ≤ axis
      · exact h1
      · exfalso
        simp only [applyChords3] at h
        rw [if_neg h1] at h
        by_cases h2 : (swap3 (axis % 3).toNat g).n = 1 ∨
            (swap3 (axis % 3).toNat g).m = 1 ∨
            (swap3 (axis % 3).toNat g).p = 1
        · rw [if_pos h2] at h
          simp at h
        · rw [if_neg h2] at h
          simp at h
    · intro h1
      simp only [applyChords3]
      rw [if_pos h1]

/-- C7 counterexample: a 4-D grid is not 3-dimensional, yet
`apply_chords_3D` accepts it (the source only checks `im.ndim < 3`). -/
theorem claim7_counterexample :
    ndimB (.g4 (fullVoid4 2 2 2 2)) ≠ 3 ∧
    (apply_chords_3D (.g4 (fullVoid4 2 2 2 2)) 0 true).isOk = true := by
  decide

/-- C7 (amended): `apply_chords_3D` fails exactly when the input has
fewer than 3 dimensions; 3-D and higher-dimensional inputs (any
`spacing ≥ 0`, either `trim_edges`) succeed. -/
theorem claim7_ndim_check :
    ∀ (g : NdB) (spacing : ℕ) (trim : Bool),
      (apply_chords_3D g spacing trim).isOk = true ↔ 3 ≤ ndimB g := by
  intro g spacing trim
  cases g with
  | g2 a => simp [apply_chords_3D, ndimB, Except.isOk, Except.toBool]
  | g3 a => simp [apply_chords_3D, ndimB, Except.isOk, Except.toBool]
  | g4 a => simp [apply_chords_3D, ndimB, Except.isOk, Except.toBool]

/-- Witness for C7's amended theorem at a concrete call. -/
theorem claim7_witness :
    (apply_chords_3D (.g2 (fullVoid2 2 2)) 0 true).isOk = true ↔
      3 ≤ ndimB (.g2 (fullVoid2 2 2)) :=
  claim7_ndim_check (.g2 (fullVoid2 2 2)) 0 true

/-- C8: every voxel marked by `apply_chords` (2-D or 3-D, any axis, any
spacing, either trim setting) and every voxel labelled by
`apply_chords_3D` is void in the input grid: chords never mark solid. -/
theorem claim8_chords_subset_void :
    (∀ (g : Arr2 Bool) (spacing : ℕ) (axis : ℤ) (trim : Bool)
        (g' : Arr2 Bool), applyChords2 g spacing axis trim = .ok g' →
      ∀ i j, get2 g' i j = true → get2 g i j = true) ∧
    (∀ (g : Arr3 Bool) (spacing : ℕ) (axis : ℤ) (trim : Bool)
        (g' : Arr3 Bool), applyChords3 g spacing axis trim = .ok g' →
      ∀ i j k, get3 g' i j k = true → get3 g i j k = true) ∧
    (∀ (a : Arr3 Bool) (spacing : ℕ) (trim : Bool) (l : Arr3 ℕ),
      apply_chords_3D (.g3 a) spacing trim = .ok (.l3 l) →
      ∀ i j k, get3N l i j k ≠ 0 → get3 a i j k = true) ∧
    (∀ (a : Arr4 Bool) (spacing : ℕ) (trim : Bool) (l : Arr4 ℕ),
      apply_chords_3D (.g4 a) spacing trim = .ok (.l4 l) →
      ∀ i j k m4, get4N l i j k m4 ≠ 0 → get4 a i j k m4 = true) :=
  ⟨fun _ _ _ _ _ h i j => applyChords2_subset h i j,
   fun _ _ _ _ _ h i j k => applyChords3_subset h i j k,
   fun _ _ _ _ h i j k => applyChords3D_g3_subset h i j k,
   fun _ _ _ _ h i j k m4 => applyChords3D_g4_subset h i j k m4⟩

/-- Witness for C8 at a concrete call. -/
theorem claim8_witness :
    applyChords2 (fullVoid2 5 5) 0 0 false =
      .ok (mk2 5 5 fun _ j => decide (j % 4 = 0)) ∧
    get2 (mk2 5 5 fun _ j => decide (j % 4 = 0)) 2 4 = true ∧
    get2 (fullVoid2 5 5) 2 4 = true :=
  ⟨by decide, by decide,
    claim8_chords_subset_void.1 (fullVoid2 5 5) 0 0 false
      (mk2 5 5 fun _ j => decide (j % 4 = 0)) (by decide) 2 4 (by decide)⟩

/-! ## Lemmas about the two-point correlation estimator -/

theorem pyRangePos_lt {stop step x : ℕ} (h : x ∈ pyRangePos stop step) :
    x < stop := by
  simp only [pyRangePos, List.mem_map, List.mem_range] at h
  obtain ⟨k, hk, rfl⟩ := h
  rcases Nat.eq_zero_or_pos step with h0 | h0
  · subst h0
    simp [Nat.div_zero] at hk
  · have h1 : ((stop + step - 1) / step) * step ≤ stop + step - 1 :=
      Nat.div_mul_le_self _ _
    have h2 : (k + 1) * step ≤ ((stop + step - 1) / step) * step :=
      Nat.mul_le_mul_right _ hk
    have h3 : k * step + step ≤ stop + step - 1 := by
      calc k * step + step = (k + 1) * step := by ring
        _ ≤ ((stop + step - 1) / step) * step := h2
        _ ≤ stop + step - 1 := h1
    generalize hK : k * step = K at h3 ⊢
    omega

theorem mem_meshPts2 {r0 r1 : List ℕ} {p : ℕ × ℕ}
    (h : p ∈ meshPts2 r0 r1) : p.1 ∈ r0 ∧ p.2 ∈ r1 := by
  simp only [meshPts2, List.mem_flatMap, List.mem_map] at h
  obtain ⟨y, hy, x, hx, rfl⟩ := h
  exact ⟨hx, hy⟩

theorem mem_meshPts3 {r0 r1 r2 : List ℕ} {p : ℕ × ℕ × ℕ}
    (h : p ∈ meshPts3 r0 r1 r2) :
    p.1 ∈ r0 ∧ p.2.1 ∈ r1 ∧ p.2.2 ∈ r2 := by
  simp only [meshPts3, List.mem_flatMap, List.mem_map] at h
  obtain ⟨y, hy, x, hx, z, hz, rfl⟩ := h
  exact ⟨hx, hy, hz⟩

theorem zipWith_div_self_getD (l : List ℕ) (i : ℕ) (hi : i < l.length)
    (hne : l.getD i 0 ≠ 0) :
    (List.zipWith (fun (b a : ℕ) => (b : ℚ) / (a : ℚ)) l l).getD i 0 = 1 := by
  induction l generalizing i with
  | nil => simp at hi
  | cons x t ih =>
      cases i with
      | zero =>
          rw [show (List.zipWith (fun (b a : ℕ) => (b : ℚ) / (a : ℚ))
              (x :: t) (x :: t)).getD 0 0 = (x : ℚ) / (x : ℚ) from rfl]
          exact div_self (by exact_mod_cast (show x ≠ 0 from hne))
      | succ n =>
          rw [show (List.zipWith (fun (b a : ℕ) => (b : ℚ) / (a : ℚ))
              (x :: t) (x :: t)).getD (n + 1) 0 =
              (List.zipWith (fun (b a : ℕ) => (b : ℚ) / (a : ℚ)) t t).getD n 0
              from rfl]
          exact ih n
            (by simp only [List.length_cons] at hi; omega)
            (show t.getD n 0 ≠ 0 from hne)

theorem pyRangeE_pos {s : ℤ} (hs : 0 < s) (stop : ℕ) :
    pyRangeE stop s = .ok (pyRangePos stop s.toNat) := by
  unfold pyRangeE
  rw [if_neg (by omega), if_neg (by omega)]

/-- C4 counterexample: on a 2 x 2 grid with `spacing = 10` the grid is
smaller than one stride in every dimension, yet `two_point_correlation_bf`
returns normally (an empty histogram pair) instead of failing; likewise a
negative spacing returns normally instead of failing. -/
theorem claim4_counterexample :
    (fullVoid2 2 2).n < 10 ∧ (fullVoid2 2 2).m < 10 ∧
    two_point_correlation_bf (.g2 (fullVoid2 2 2)) 10 = .ok ⟨[], []⟩ ∧
    (-1 : ℤ) ≤ 0 ∧
    two_point_correlation_bf (.g2 (fullVoid2 5 5)) (-1) = .ok ⟨[], []⟩ :=
  ⟨by decide, by decide, by decide, by decide, by decide⟩

/-- C4 (amended): `two_point_correlation_bf` performs no up-front
validation.  On 2-D and 3-D grids it fails (a ValueError from
`range(..., 0)` while building the sampling grid) exactly when
`spacing = 0`; for any nonzero spacing — negative spacing and
grids smaller than one stride included — it returns a result. -/
theorem claim4_no_validation :
    ∀ (g : NdB) (s : ℤ), ndimB g ≤ 3 →
      (two_point_correlation_bf g s = .error .valueError ↔ s = 0) ∧
      (s ≠ 0 → (two_point_correlation_bf g s).isOk = true) := by
  intro g s hnd
  have hrange : s ≠ 0 → ∀ stop : ℕ, ∃ l, pyRangeE stop s = .ok l := by
    intro h0 stop
    by_cases hneg : s < 0
    · exact ⟨[], by unfold pyRangeE; rw [if_neg h0, if_pos hneg]⟩
    · exact ⟨_, by unfold pyRangeE; rw [if_neg h0, if_neg hneg]⟩
  cases g with
  | g4 a => simp [ndimB] at hnd
  | g2 a =>
      by_cases h0 : s = 0
      · subst h0
        refine ⟨⟨fun _ => rfl, fun _ => ?_⟩, fun h => absurd rfl h⟩
        simp [two_point_correlation_bf, tpcData, pyRangeE, Except.bind]
      · obtain ⟨l0, e0⟩ := hrange h0 a.n
        obtain ⟨l1, e1⟩ := hrange h0 a.m
        obtain ⟨l2, e2⟩ := hrange h0 (min a.n a.m / 2)
        constructor
        · constructor
          · intro h
            simp only [two_point_correlation_bf, tpcData, e0, e1, e2,
              Except.bind] at h
            exact Except.noConfusion h
          · intro h; exact absurd h h0
        · intro _
          simp [two_point_correlation_bf, tpcData, e0, e1, e2,
            Except.bind, Except.isOk, Except.toBool]
  | g3 a =>
      by_cases h0 : s = 0
      · subst h0
        refine ⟨⟨fun _ => rfl, fun _ => ?_⟩, fun h => absurd rfl h⟩
        simp [two_point_correlation_bf, tpcData, pyRangeE, Except.bind]
      · obtain ⟨l0, e0⟩ := hrange h0 a.n
        obtain ⟨l1, e1⟩ := hrange h0 a.m
        obtain ⟨l2, e2⟩ := hrange h0 a.p
        obtain ⟨l3, e3⟩ := hrange h0 (min a.n (min a.m a.p) / 2)
        constructor
        · constructor
          · intro h
            simp only [two_point_correlation_bf, tpcData, e0, e1, e2, e3,
              Except.bind] at h
            exact Except.noConfusion h
          · intro h; exact absurd h h0
        · intro _
          simp [two_point_correlation_bf, tpcData, e0, e1, e2, e3,
            Except.bind, Except.isOk, Except.toBool]

/-- Witness for C4's amended theorem at a concrete call. -/
theorem claim4_witness :
    (two_point_correlation_bf (.g2 (fullVoid2 3 3)) 5).isOk = true :=
  (claim4_no_validation (.g2 (fullVoid2 3 3)) 5 (by decide)).2 (by decide)

/-- C10: on a 100% void 2-D or 3-D grid with any positive spacing, the
two histograms of `two_point_correlation_bf` (h1: first point void, h2:
both points void) are equal in every bin, and the returned ratio is 1 in
every bin where h1 is nonzero. -/
theorem claim10_fully_void_histograms :
    ∀ (g : NdB) (s : ℤ), ndimB g ≤ 3 → allVoidB g → 0 < s →
      ∃ edges hA hB, tpcData g s = .ok (edges, hA, hB) ∧ hA = hB ∧
        two_point_correlation_bf g s =
          .ok ⟨edges.dropLast,
            List.zipWith (fun (b a : ℕ) => (b : ℚ) / (a : ℚ)) hB hA⟩ ∧
        ∀ i, i < hA.length → hA.getD i 0 ≠ 0 →
          (List.zipWith (fun (b a : ℕ) => (b : ℚ) / (a : ℚ)) hB hA).getD i 0
            = 1 := by
  intro g s hnd hav hs
  cases g with
  | g4 a => simp [ndimB] at hnd
  | g2 a =>
      have hfil : (meshPts2 (pyRangePos a.n s.toNat)
            (pyRangePos a.m s.toNat)).filter
            (fun p => get2 a p.1 p.2) =
          meshPts2 (pyRangePos a.n s.toNat) (pyRangePos a.m s.toNat) := by
        rw [List.filter_eq_self]
        intro p hp
        obtain ⟨h1, h2⟩ := mem_meshPts2 hp
        exact hav p.1 (pyRangePos_lt h1) p.2 (pyRangePos_lt h2)
      have htp : tpcData (.g2 a) s = .ok
          (pyRangePos (min a.n a.m / 2) s.toNat,
           histCounts (pyRangePos (min a.n a.m / 2) s.toNat)
            ((meshPts2 (pyRangePos a.n s.toNat)
                (pyRangePos a.m s.toNat)).flatMap fun p =>
              (meshPts2 (pyRangePos a.n s.toNat)
                (pyRangePos a.m s.toNat)).map fun q => sqDist2 p q),
           histCounts (pyRangePos (min a.n a.m / 2) s.toNat)
            ((meshPts2 (pyRangePos a.n s.toNat)
                (pyRangePos a.m s.toNat)).flatMap fun p =>
              (meshPts2 (pyRangePos a.n s.toNat)
                (pyRangePos a.m s.toNat)).map fun q => sqDist2 p q)) := by
        simp only [tpcData, pyRangeE_pos hs, Except.bind]
        rw [hfil]
      refine ⟨_, _, _, htp, rfl, ?_, ?_⟩
      · simp only [two_point_correlation_bf, htp]
      · intro i hi hne
        exact zipWith_div_self_getD _ i hi hne
  | g3 a =>
      have hfil : (meshPts3 (pyRangePos a.n s.toNat)
            (pyRangePos a.m s.toNat) (pyRangePos a.p s.toNat)).filter
            (fun p => get3 a p.1 p.2.1 p.2.2) =
          meshPts3 (pyRangePos a.n s.toNat) (pyRangePos a.m s.toNat)
            (pyRangePos a.p s.toNat) := by
        rw [List.filter_eq_self]
        intro p hp
        obtain ⟨h1, h2, h3⟩ := mem_meshPts3 hp
        exact hav p.1 (pyRangePos_lt h1) p.2.1 (pyRangePos_lt h2)
          p.2.2 (pyRangePos_lt h3)
      have htp : tpcData (.g3 a) s = .ok
          (pyRangePos (min a.n (min a.m a.p) / 2) s.toNat,
           histCounts (pyRangePos (min a.n (min a.m a.p) / 2) s.toNat)
            ((meshPts3 (pyRangePos a.n s.toNat) (pyRangePos a.m s.toNat)
                (pyRangePos a.p s.toNat)).flatMap fun p =>
              (meshPts3 (pyRangePos a.n s.toNat) (pyRangePos a.m s.toNat)
                (pyRangePos a.p s.toNat)).map fun q => sqDist3 p q),
           histCounts (pyRangePos (min a.n (min a.m a.p) / 2) s.toNat)
            ((meshPts3 (pyRangePos a.n s.toNat) (pyRangePos a.m s.toNat)
                (pyRangePos a.p s.toNat)).flatMap fun p =>
              (meshPts3 (pyRangePos a.n s.toNat) (pyRangePos a.m s.toNat)
                (pyRangePos a.p s.toNat)).map fun q => sqDist3 p q)) := by
        simp only [tpcData, pyRangeE_pos hs, Except.bind]
        rw [hfil]
      refine ⟨_, _, _, htp, rfl, ?_, ?_⟩
      · simp only [two_point_correlation_bf, htp]
      · intro i hi hne
        exact zipWith_div_self_getD _ i hi hne

/-- Witness for C10 at a concrete call. -/
theorem claim10_witness :
    ndimB (.g2 (fullVoid2 6 6)) ≤ 3 ∧ allVoidB (.g2 (fullVoid2 6 6)) ∧
    (0 : ℤ) < 2 ∧
    (∃ edges hA hB,
      tpcData (.g2 (fullVoid2 6 6)) 2 = .ok (edges, hA, hB) ∧ hA = hB ∧
      two_point_correlation_bf (.g2 (fullVoid2 6 6)) 2 =
        .ok ⟨edges.dropLast,
          List.zipWith (fun (b a : ℕ) => (b : ℚ) / (a : ℚ)) hB hA⟩ ∧
      ∀ i, i < hA.length → hA.getD i 0 ≠ 0 →
        (List.zipWith (fun (b a : ℕ) => (b : ℚ) / (a : ℚ)) hB hA).getD i 0
          = 1) :=
  ⟨by decide, by decide, by decide,
    claim10_fully_void_histograms (.g2 (fullVoid2 6 6)) 2 (by decide)
      (by decide) (by decide)⟩

/-! ## Lemmas for chord_length_distribution on a single straight run -/

theorem mk2_n (n m : ℕ) (f : ℕ → ℕ → Bool) : (mk2 n m f).n = n := rfl

theorem mk2_m (n m : ℕ) (f : ℕ → ℕ → Bool) : (mk2 n m f).m = m := rfl

theorem mem_rasterCells {n m : ℕ} {p : ℕ × ℕ} :
    p ∈ rasterCells n m ↔ p.1 < n ∧ p.2 < m := by
  rcases p with ⟨i, j⟩
  simp only [rasterCells, List.mem_flatMap, List.mem_map, List.mem_range]
  constructor
  · rintro ⟨a, ha, b, hb, hab⟩
    rw [Prod.mk.injEq] at hab
    obtain ⟨h1, h2⟩ := hab
    subst h1; subst h2
    exact ⟨ha, hb⟩
  · rintro ⟨h1, h2⟩
    exact ⟨i, h1, j, h2, rfl⟩

theorem compStep_skip {g : Arr2 Bool} {acc : List (Finset (ℕ × ℕ))}
    {p : ℕ × ℕ}
    (h : (get2 g p.1 p.2 && !(acc.any fun c => decide (p ∈ c))) = false) :
    compStep g acc p = acc := by
  unfold compStep
  rw [h]
  simp

theorem compStep_new {g : Arr2 Bool} {acc : List (Finset (ℕ × ℕ))}
    {p : ℕ × ℕ}
    (h : (get2 g p.1 p.2 && !(acc.any fun c => decide (p ∈ c))) = true) :
    compStep g acc p =
      acc ++ [breach adj2b (voidSet2 g) {p} (g.n * g.m)] := by
  unfold compStep
  rw [h]
  simp

theorem foldl_compStep_stays (g : Arr2 Bool) (S : Finset (ℕ × ℕ))
    (hS : voidSet2 g = S) :
    ∀ cells : List (ℕ × ℕ), (∀ p ∈ cells, p.1 < g.n ∧ p.2 < g.m) →
      cells.foldl (compStep g) [S] = [S] := by
  intro cells
  induction cells with
  | nil => intro _; rfl
  | cons p tl ih =>
      intro hc
      rw [List.foldl_cons]
      have hskip : compStep g [S] p = [S] := by
        apply compStep_skip
        by_cases hv : get2 g p.1 p.2 = true
        · have hpS : p ∈ S := by
            rw [← hS, mem_voidSet2]
            exact ⟨(hc p (List.mem_cons_self _ _)).1,
              (hc p (List.mem_cons_self _ _)).2, hv⟩
          simp [hv, hpS]
        · simp only [Bool.not_eq_true] at hv
          simp [hv]
      rw [hskip]
      exact ih fun q hq => hc q (List.mem_cons_of_mem _ hq)

theorem foldl_compStep_single (g : Arr2 Bool) (S : Finset (ℕ × ℕ))
    (hS : voidSet2 g = S)
    (hreach : ∀ p ∈ S, breach adj2b S {p} (g.n * g.m) = S) :
    ∀ cells : List (ℕ × ℕ), (∀ p ∈ cells, p.1 < g.n ∧ p.2 < g.m) →
      cells.foldl (compStep g) [] =
        if ∀ p ∈ cells, p ∉ S then [] else [S] := by
  intro cells
  induction cells with
  | nil => intro _; simp
  | cons p tl ih =>
      intro hc
      rw [List.foldl_cons]
      by_cases hv : get2 g p.1 p.2 = true
      · have hpS : p ∈ S := by
          rw [← hS, mem_voidSet2]
          exact ⟨(hc p (List.mem_cons_self _ _)).1,
            (hc p (List.mem_cons_self _ _)).2, hv⟩
        have hnew : compStep g [] p =
            [breach adj2b (voidSet2 g) {p} (g.n * g.m)] := by
          have h := @compStep_new g [] p (by simp [hv])
          simpa using h
        rw [hnew, hS, hreach p hpS]
        rw [foldl_compStep_stays g S hS tl
          fun q hq => hc q (List.mem_cons_of_mem _ hq)]
        rw [if_neg (by
          push_neg
          exact ⟨p, List.mem_cons_self _ _, hpS⟩)]
      · have hpnS : p ∉ S := by
          rw [← hS, mem_voidSet2]
          rintro ⟨_, _, hg⟩
          exact hv hg
        have hskip : compStep g [] p = [] := by
          apply compStep_skip
          simp only [Bool.not_eq_true] at hv
          simp [hv]
        rw [hskip, ih fun q hq => hc q (List.mem_cons_of_mem _ hq)]
        have hiff : (∀ q ∈ p :: tl, q ∉ S) ↔ (∀ q ∈ tl, q ∉ S) := by
          rw [List.forall_mem_cons]
          simp [hpnS]
        exact if_congr hiff.symm rfl rfl

theorem componentsOf2_single (g : Arr2 Bool) (S : Finset (ℕ × ℕ))
    (hS : voidSet2 g = S) (hne : S.Nonempty)
    (hreach : ∀ p ∈ S, breach adj2b S {p} (g.n * g.m) = S) :
    componentsOf2 g = [S] := by
  unfold componentsOf2
  rw [foldl_compStep_single g S hS hreach (rasterCells g.n g.m)
    fun p hp => mem_rasterCells.mp hp]
  rw [if_neg]
  push_neg
  obtain ⟨p, hp⟩ := hne
  refine ⟨p, ?_, hp⟩
  rw [mem_rasterCells]
  rw [← hS, mem_voidSet2] at hp
  exact ⟨hp.1, hp.2.1⟩

theorem mem_voidSet2_hRun {n m r c L : ℕ} (hr : r < n) (hm : c + L ≤ m)
    (p : ℕ × ℕ) :
    p ∈ voidSet2 (hRun n m r c L) ↔
      p.1 = r ∧ c ≤ p.2 ∧ p.2 < c + L := by
  rw [mem_voidSet2]
  constructor
  · rintro ⟨_, _, h3⟩
    exact of_decide_eq_true (get2_mk2_true h3)
  · rintro ⟨h1, h2, h3⟩
    refine ⟨?_, ?_, ?_⟩
    · show p.1 < n
      omega
    · show p.2 < m
      omega
    · show get2 (mk2 n m _) p.1 p.2 = true
      rw [get2_mk2, if_pos ⟨by omega, by omega⟩]
      exact decide_eq_true ⟨h1, h2, h3⟩

theorem mem_voidSet2_vRun {n m r c L : ℕ} (hc : c < m) (hn : r + L ≤ n)
    (p : ℕ × ℕ) :
    p ∈ voidSet2 (vRun n m r c L) ↔
      p.2 = c ∧ r ≤ p.1 ∧ p.1 < r + L := by
  rw [mem_voidSet2]
  constructor
  · rintro ⟨_, _, h3⟩
    exact of_decide_eq_true (get2_mk2_true h3)
  · rintro ⟨h1, h2, h3⟩
    refine ⟨?_, ?_, ?_⟩
    · show p.1 < n
      omega
    · show p.2 < m
      omega
    · show get2 (mk2 n m _) p.1 p.2 = true
      rw [get2_mk2, if_pos ⟨by omega, by omega⟩]
      exact decide_eq_true ⟨h1, h2, h3⟩

theorem adj2b_horiz (r j : ℕ) :
    adj2b (r, j) (r, j + 1) = true ∧ adj2b (r, j + 1) (r, j) = true := by
  constructor <;> simp [adj2b]

theorem adj2b_vert (i c : ℕ) :
    adj2b (i, c) (i + 1, c) = true ∧ adj2b (i + 1, c) (i, c) = true := by
  constructor <;> simp [adj2b]

theorem breach_hRun {n m r c L : ℕ} (hr : r < n) (hm : c + L ≤ m)
    (_hL : 1 ≤ L) (p : ℕ × ℕ) (hp : p ∈ voidSet2 (hRun n m r c L)) :
    breach adj2b (voidSet2 (hRun n m r c L)) {p} (n * m) =
      voidSet2 (hRun n m r c L) := by
  obtain ⟨h1, h2, h3⟩ := (mem_voidSet2_hRun hr hm p).mp hp
  have hp_eq : p = (r, c + (p.2 - c)) := by
    rcases p with ⟨p1, p2⟩
    rw [Prod.mk.injEq]
    exact ⟨h1, by omega⟩
  rw [hp_eq]
  apply breach_line adj2b _ (fun t => (r, c + t)) L
  · intro x
    rw [mem_voidSet2_hRun hr hm]
    constructor
    · rintro ⟨hx1, hx2, hx3⟩
      refine ⟨x.2 - c, by omega, ?_⟩
      rcases x with ⟨x1, x2⟩
      rw [Prod.mk.injEq]
      exact ⟨hx1, by omega⟩
    · rintro ⟨t, ht, rfl⟩
      exact ⟨rfl, by omega, by omega⟩
  · intro t ht
    have h := adj2b_horiz r (c + t)
    rw [show c + t + 1 = c + (t + 1) from by omega] at h
    exact h
  · omega
  · have hLm : L ≤ m := by omega
    have hmn : m ≤ n * m := by
      have h := Nat.mul_le_mul_right m (show 1 ≤ n by omega)
      simpa using h
    omega

theorem breach_vRun {n m r c L : ℕ} (hc : c < m) (hn : r + L ≤ n)
    (_hL : 1 ≤ L) (p : ℕ × ℕ) (hp : p ∈ voidSet2 (vRun n m r c L)) :
    breach adj2b (voidSet2 (vRun n m r c L)) {p} (n * m) =
      voidSet2 (vRun n m r c L) := by
  obtain ⟨h1, h2, h3⟩ := (mem_voidSet2_vRun hc hn p).mp hp
  have hp_eq : p = (r + (p.1 - r), c) := by
    rcases p with ⟨p1, p2⟩
    rw [Prod.mk.injEq]
    exact ⟨by omega, h1⟩
  rw [hp_eq]
  apply breach_line adj2b _ (fun t => (r + t, c)) L
  · intro x
    rw [mem_voidSet2_vRun hc hn]
    constructor
    · rintro ⟨hx1, hx2, hx3⟩
      refine ⟨x.1 - r, by omega, ?_⟩
      rcases x with ⟨x1, x2⟩
      rw [Prod.mk.injEq]
      exact ⟨by omega, hx1⟩
    · rintro ⟨t, ht, rfl⟩
      exact ⟨rfl, by omega, by omega⟩
  · intro t ht
    have h := adj2b_vert (r + t) c
    rw [show r + t + 1 = r + (t + 1) from by omega] at h
    exact h
  · omega
  · have hLn : L ≤ n := by omega
    have hnm : n ≤ n * m := by
      have h := Nat.mul_le_mul_left n (show 1 ≤ m by omega)
      simpa using h
    omega

theorem compLen_hRun {n m r c L : ℕ} (hr : r < n) (hm : c + L ≤ m)
    (hL : 1 ≤ L) : compLen (voidSet2 (hRun n m r c L)) = L := by
  have hmem := mem_voidSet2_hRun hr hm
  set S := voidSet2 (hRun n m r c L) with hSdef
  have his : ∀ x, x ∈ S.image Prod.fst ↔ x = r := by
    intro x
    rw [Finset.mem_image]
    constructor
    · rintro ⟨p, hp, rfl⟩
      exact ((hmem p).mp hp).1
    · intro hx
      exact ⟨(r, c), (hmem _).mpr ⟨rfl, le_refl c, by omega⟩, hx.symm⟩
  have hjs : ∀ x, x ∈ S.image Prod.snd ↔ c ≤ x ∧ x < c + L := by
    intro x
    rw [Finset.mem_image]
    constructor
    · rintro ⟨p, hp, rfl⟩
      exact ⟨((hmem p).mp hp).2.1, ((hmem p).mp hp).2.2⟩
    · rintro ⟨hx1, hx2⟩
      exact ⟨(r, x), (hmem _).mpr ⟨rfl, hx1, hx2⟩, rfl⟩
  have himax : (S.image Prod.fst).fold max 0 id = r := by
    apply le_antisymm
    · rw [Finset.fold_max_le]
      refine ⟨Nat.zero_le r, fun x hx => ?_⟩
      rw [his x] at hx
      simp only [id_eq]
      omega
    · rw [Finset.le_fold_max]
      exact Or.inr ⟨r, (his r).mpr rfl, le_refl r⟩
  have himin :
      (S.image Prod.fst).fold min ((S.image Prod.fst).fold max 0 id) id
        = r := by
    rw [himax]
    apply le_antisymm
    · rw [Finset.fold_min_le]
      exact Or.inr ⟨r, (his r).mpr rfl, le_refl r⟩
    · rw [Finset.le_fold_min]
      refine ⟨le_refl r, fun x hx => ?_⟩
      rw [his x] at hx
      simp only [id_eq]
      omega
  have hjmax : (S.image Prod.snd).fold max 0 id = c + L - 1 := by
    apply le_antisymm
    · rw [Finset.fold_max_le]
      refine ⟨Nat.zero_le _, fun x hx => ?_⟩
      rw [hjs x] at hx
      simp only [id_eq]
      omega
    · rw [Finset.le_fold_max]
      exact Or.inr ⟨c + L - 1, (hjs _).mpr ⟨by omega, by omega⟩,
        le_refl _⟩
  have hjmin :
      (S.image Prod.snd).fold min ((S.image Prod.snd).fold max 0 id) id
        = c := by
    rw [hjmax]
    apply le_antisymm
    · rw [Finset.fold_min_le]
      exact Or.inr ⟨c, (hjs c).mpr ⟨le_refl c, by omega⟩, le_refl c⟩
    · rw [Finset.le_fold_min]
      refine ⟨by omega, fun x hx => ?_⟩
      rw [hjs x] at hx
      simp only [id_eq]
      omega
  simp only [compLen]
  rw [himin, hjmin, himax, hjmax]
  rw [show r + 1 - r = 1 from by omega,
    show c + L - 1 + 1 - c = L from by omega]
  exact Nat.max_eq_right hL

theorem compLen_vRun {n m r c L : ℕ} (hc : c < m) (hn : r + L ≤ n)
    (hL : 1 ≤ L) : compLen (voidSet2 (vRun n m r c L)) = L := by
  have hmem := mem_voidSet2_vRun hc hn
  set S := voidSet2 (vRun n m r c L) with hSdef
  have his : ∀ x, x ∈ S.image Prod.fst ↔ r ≤ x ∧ x < r + L := by
    intro x
    rw [Finset.mem_image]
    constructor
    · rintro ⟨p, hp, rfl⟩
      exact ⟨((hmem p).mp hp).2.1, ((hmem p).mp hp).2.2⟩
    · rintro ⟨hx1, hx2⟩
      exact ⟨(x, c), (hmem _).mpr ⟨rfl, hx1, hx2⟩, rfl⟩
  have hjs : ∀ x, x ∈ S.image Prod.snd ↔ x = c := by
    intro x
    rw [Finset.mem_image]
    constructor
    · rintro ⟨p, hp, rfl⟩
      exact ((hmem p).mp hp).1
    · intro hx
      exact ⟨(r, c), (hmem _).mpr ⟨rfl, le_refl r, by omega⟩, hx.symm⟩
  have himax : (S.image Prod.fst).fold max 0 id = r + L - 1 := by
    apply le_antisymm
    · rw [Finset.fold_max_le]
      refine ⟨Nat.zero_le _, fun x hx => ?_⟩
      rw [his x] at hx
      simp only [id_eq]
      omega
    · rw [Finset.le_fold_max]
      exact Or.inr ⟨r + L - 1, (his _).mpr ⟨by omega, by omega⟩,
        le_refl _⟩
  have himin :
      (S.image Prod.fst).fold min ((S.image Prod.fst).fold max 0 id) id
        = r := by
    rw [himax]
    apply le_antisymm
    · rw [Finset.fold_min_le]
      exact Or.inr ⟨r, (his r).mpr ⟨le_refl r, by omega⟩, le_refl r⟩
    · rw [Finset.le_fold_min]
      refine ⟨by omega, fun x hx => ?_⟩
      rw [his x] at hx
      simp only [id_eq]
      omega
  have hjmax : (S.image Prod.snd).fold max 0 id = c := by
    apply le_antisymm
    · rw [Finset.fold_max_le]
      refine ⟨Nat.zero_le c, fun x hx => ?_⟩
      rw [hjs x] at hx
      simp only [id_eq]
      omega
    · rw [Finset.le_fold_max]
      exact Or.inr ⟨c, (hjs c).mpr rfl, le_refl c⟩
  have hjmin :
      (S.image Prod.snd).fold min ((S.image Prod.snd).fold max 0 id) id
        = c := by
    rw [hjmax]
    apply le_antisymm
    · rw [Finset.fold_min_le]
      exact Or.inr ⟨c, (hjs c).mpr rfl, le_refl c⟩
    · rw [Finset.le_fold_min]
      refine ⟨le_refl c, fun x hx => ?_⟩
      rw [hjs x] at hx
      simp only [id_eq]
      omega
  simp only [compLen]
  rw [himin, hjmin, himax, hjmax]
  rw [show r + L - 1 + 1 - r = L from by omega,
    show c + 1 - c = 1 from by omega]
  exact Nat.max_eq_left hL

/-- C9: `chord_length_distribution` on an image whose void space is one
single straight run of `L` contiguous voxels along either axis returns
exactly the one-element sequence `[L]`: the run is one connected
component and the longest side of its bounding box is `L`. -/
theorem claim9_single_run_length :
    (∀ n m r c L : ℕ, 1 ≤ L → r < n → c + L ≤ m →
      chord_length_distribution (hRun n m r c L) = [L]) ∧
    (∀ n m r c L : ℕ, 1 ≤ L → c < m → r + L ≤ n →
      chord_length_distribution (vRun n m r c L) = [L]) := by
  constructor
  · intro n m r c L hL hr hm
    have hcomp : componentsOf2 (hRun n m r c L) =
        [voidSet2 (hRun n m r c L)] := by
      apply componentsOf2_single
      · rfl
      · exact ⟨(r, c),
          (mem_voidSet2_hRun hr hm _).mpr ⟨rfl, le_refl c, by omega⟩⟩
      · intro p hp
        exact breach_hRun hr hm hL p hp
    unfold chord_length_distribution
    rw [hcomp]
    simp only [List.map_cons, List.map_nil, compLen_hRun hr hm hL]
  · intro n m r c L hL hc hn
    have hcomp : componentsOf2 (vRun n m r c L) =
        [voidSet2 (vRun n m r c L)] := by
      apply componentsOf2_single
      · rfl
      · exact ⟨(r, c),
          (mem_voidSet2_vRun hc hn _).mpr ⟨rfl, le_refl r, by omega⟩⟩
      · intro p hp
        exact breach_vRun hc hn hL p hp
    unfold chord_length_distribution
    rw [hcomp]
    simp only [List.map_cons, List.map_nil, compLen_vRun hc hn hL]

/-- Witness for C9 at a concrete image (a horizontal run of 3 voxels and
a vertical run of 3 voxels in a 5 x 5 grid). -/
theorem claim9_witness :
    (1 ≤ 3 ∧ 1 < 5 ∧ 1 + 3 ≤ 5) ∧
    chord_length_distribution (hRun 5 5 1 1 3) = [3] ∧
    chord_length_distribution (vRun 5 5 2 2 3) = [3] :=
  ⟨⟨by decide, by decide, by decide⟩,
    claim9_single_run_length.1 5 5 1 1 3 (by decide) (by decide)
      (by decide),
    claim9_single_run_length.2 5 5 2 2 3 (by decide) (by decide)
      (by decide)⟩
